import Mathlib

/-!
# smallsh: job table, background classification, redirection, status report

A shallow embedding of `smallsh.c`.  A C array is modelled as the words
addressed from its base (`Nat → value`), so that an index past the declared
length shows up as an access instead of being hidden by the model; the
job-table routines and the parser record every array access they make.  Loops
are recursive functions over an explicit fuel whose guard is the loop condition
of the source.  The operating system (file system, `fork`, `execvp`, `waitpid`)
enters as an oracle argument.
-/

namespace Smallsh

/-! ## Constants -/

/-- The constant `BUFFER_SIZE`: most characters read from the command line. -/
def BUFFER_SIZE : Nat := 2048

/-- The constant `MAX_NUMBER_ARG`: slots of the argument array. -/
def MAX_NUMBER_ARG : Nat := 512

/-- The constant `MAX_CHILD_PROCESSES`: slots of the background list. -/
def MAX_CHILD_PROCESSES : Nat := 32

/-! ## Outcomes -/

/-- How a run of a routine ends. -/
inductive Run (α : Type) where
  /-- The routine returned. -/
  | done (a : α)
  /-- The routine called `exit(code)` after `perror(diag)`. -/
  | exited (code : Int) (diag : String)
  /-- The routine left the behaviour defined by C (`what` says where). -/
  | fault (what : String)
  /-- The fuel of a loop ran out. -/
  | stuck

/-- One access to a slot of a C array. -/
inductive Access where
  | read (i : Nat)
  | write (i : Nat)
  deriving DecidableEq

/-- Slot index of an access. -/
def Access.index : Access → Nat
  | .read i => i
  | .write i => i

/-! ## Job table -/

/-- The words addressed as `bg_list[0]`, `bg_list[1]`, ...; `main` declares
`pid_t bg_list[MAX_CHILD_PROCESSES]`, so the array proper is indices `0..31` and
an index of 32 or more is the memory that follows the array. -/
abbrev PidMem := Nat → Int

/-- The assignment `bg_list[k] = v`. -/
def PidMem.set (bg : PidMem) (k : Nat) (v : Int) : PidMem :=
  fun x => if x = k then v else bg x

/-- The first `n` slots, in slot order: the tracked identifiers of a table
of size `n`. -/
def tracked (bg : PidMem) (n : Nat) : List Int :=
  (List.range n).map bg

/-- What a job-table routine leaves: its return value, the array, `*size`, the
array accesses it made in program order, and what it printed. -/
structure JobResult where
  ret : Int
  bg_list : PidMem
  size : Nat
  touched : List Access
  out : List String

/-- The inner loop of `RemovePID`:
`for (int j = i; j < (*size); j++) bg_list[j] = bg_list[j + 1];`
(`none`: out of fuel). -/
def shiftLoop (size : Nat) : Nat → Nat → PidMem → List Access →
    Option (PidMem × List Access)
  | 0, _, _, _ => none
  | fuel + 1, j, bg, log =>
    if j < size then
      shiftLoop size fuel (j + 1) (bg.set j (bg (j + 1)))
        (log ++ [Access.read (j + 1), Access.write j])
    else
      some (bg, log)

/-- The outer loop of `RemovePID`: `for (size_t i = 0; i < (*size); i++)` with
its body (`none`: out of fuel). -/
def scanLoop (pid : Int) (size : Nat) : Nat → Nat → PidMem → List Access →
    Option JobResult
  | 0, _, _, _ => none
  | fuel + 1, i, bg, log =>
    if i < size then
      if bg i = pid then
        if i = MAX_CHILD_PROCESSES - 1 then
          some { ret := 0, bg_list := bg.set i 0, size := size - 1,
                 touched := log ++ [Access.read i, Access.write i], out := [] }
        else
          match shiftLoop size (size + 1) i bg (log ++ [Access.read i]) with
          | none => none
          | some (bg', log') =>
            some { ret := 0, bg_list := bg', size := size - 1, touched := log', out := [] }
      else
        scanLoop pid size fuel (i + 1) bg (log ++ [Access.read i])
    else
      some { ret := -1, bg_list := bg, size := size, touched := log, out := [] }

/-- The routine `int RemovePID(pid_t pid, pid_t *bg_list, size_t *size)`. -/
def RemovePID (pid : Int) (bg : PidMem) (size : Nat) : Option JobResult :=
  scanLoop pid size (size + 1) 0 bg []

/-- The routine `int PushPID(pid_t pid, pid_t *bg_list, size_t *size)`. -/
def PushPID (pid : Int) (bg : PidMem) (size : Nat) : JobResult :=
  if size ≥ MAX_CHILD_PROCESSES then
    { ret := -1, bg_list := bg, size := size, touched := [],
      out := ["Too many child processes running\n"] }
  else
    { ret := 0, bg_list := bg.set size pid, size := size + 1,
      touched := [Access.write size], out := [] }

/-- The array left by shifting slots `p+1 .. n` one place down. -/
def shifted (bg : PidMem) (p n : Nat) : PidMem :=
  fun k => if p ≤ k ∧ k < n then bg (k + 1) else bg k

/-- A full table: slot `k` holds the identifier `100 + k`. -/
def fullTable : PidMem := fun k => 100 + (k : Int)

/-- The slots `argv[0]`, `argv[1]`, ... of a `char **`; `none` is `NULL`. -/
abbrev Argv := Nat → Option String

/-- The assignment `argv[k] = v`. -/
def Argv.set (argv : Argv) (k : Nat) (v : Option String) : Argv :=
  fun x => if x = k then v else argv x

/-- The first `n` slots of an argument array. -/
def slots (argv : Argv) (n : Nat) : List (Option String) :=
  (List.range n).map argv

/-- The array holds the command vector `toks`: its first slots are the tokens,
in order, and the next slot is the `NULL` sentinel.  This is the vector that
`execvp` and every scan up to the first `NULL` see; nothing is said about the
slots after the sentinel. -/
def Holds (argv : Argv) (toks : List String) : Prop :=
  slots argv (toks.length + 1) = toks.map some ++ [none]

instance (argv : Argv) (toks : List String) : Decidable (Holds argv toks) := by
  unfold Holds; infer_instance

/-- The array whose slots are the tokens followed by `NULL` in every later
slot. -/
def layout (toks : List String) : Argv := fun k => toks[k]?

/-! ## Signal controller and classification -/

/-- The handler `void catchSIGTSTP(int signo)`: the new value of the global
`TSTP_Flag` and what is written to standard output. -/
def catchSIGTSTP (TSTP_Flag : Int) : Int × List String :=
  if TSTP_Flag = 0 then
    (1, ["\nEntering foreground-only mode (& is now ignored)\n"])
  else
    (0, ["\nExiting foreground-only mode\n"])

/-- The loop `while (argv[i] != NULL) i++;` of `IsBGProcess`
(`none`: out of fuel). -/
def argvEnd (argv : Argv) : Nat → Nat → Option Nat
  | 0, _ => none
  | fuel + 1, i => if argv i ≠ none then argvEnd argv fuel (i + 1) else some i

/-- The routine `int IsBGProcess(char **argv)`, reading the global
`TSTP_Flag`: its return value and the array it leaves.  With no token at all the
source reads `argv[-1]`. -/
def IsBGProcess (TSTP_Flag : Int) (argv : Argv) (fuel : Nat) : Run (Int × Argv) :=
  match argvEnd argv fuel 0 with
  | none => .stuck
  | some 0 => .fault "argv[-1]"
  | some (last + 1) =>
    if argv last = some "&" then
      if TSTP_Flag ≠ 0 then .done (0, argv.set last none)
      else .done (1, argv.set last none)
    else
      .done (0, argv)

/-! ## Redirector -/

/-- The flag sets `RedirectIO` passes to `open`. -/
inductive OpenFlags where
  | rdonly
  | wronly
  | wronly_creat_trunc
  deriving DecidableEq

/-- The file system as `open(2)` answers a process: the descriptor returned for
a path and flags at the call that follows `n` earlier opens of the process
(whose effects, such as a file created by `>`, the answer may reflect), negative
when the open fails. -/
structure FileSystem where
  openFile : Nat → String → OpenFlags → Int

/-- The call `open(path, flags)` after `n` earlier opens; a `NULL` path fails
(`EFAULT`). -/
def FileSystem.sys_open (fs : FileSystem) (n : Nat) (path : Option String)
    (flags : OpenFlags) : Int :=
  match path with
  | none => -1
  | some p => fs.openFile n p flags

/-- The state of the child that redirection changes: its argument array, the
descriptors put on standard input and output, and the descriptors marked
close-on-exec, latest first (every descriptor `RedirectIO` opens is marked, so
their number is the number of opens made so far). -/
structure Child where
  argv : Argv
  stdin : Option Int
  stdout : Option Int
  cloexec : List Int

/-- The descriptor `tgt_file` that the `>` branch opens: the null device when
the operand is absent and the command runs in the background, the operand
otherwise. -/
def openTarget (fs : FileSystem) (isBG : Int) (n : Nat) (operand : Option String) : Int :=
  if operand = none ∧ isBG ≠ 0 then fs.openFile n "/dev/null" OpenFlags.wronly
  else fs.sys_open n operand OpenFlags.wronly_creat_trunc

/-- The descriptor `src_file` that the `<` branch opens. -/
def openSource (fs : FileSystem) (isBG : Int) (n : Nat) (operand : Option String) : Int :=
  if operand = none ∧ isBG ≠ 0 then fs.openFile n "/dev/null" OpenFlags.rdonly
  else fs.sys_open n operand OpenFlags.rdonly

/-- The loop `while (argv[i] != NULL) ... i++` of `RedirectIO`.  The call
`dup2(fd, ...)` fails exactly on a negative descriptor. -/
def redirectLoop (fs : FileSystem) (isBG : Int) : Nat → Nat → Child → Run Child
  | 0, _, _ => .stuck
  | fuel + 1, i, c =>
    match c.argv i with
    | none => .done c
    | some tok =>
      if tok = ">" then
        if openTarget fs isBG c.cloexec.length (c.argv (i + 1)) < 0 then .exited 1 "target dup2()"
        else redirectLoop fs isBG fuel (i + 1)
          { c with argv := c.argv.set 1 none,
                   stdout := some (openTarget fs isBG c.cloexec.length (c.argv (i + 1))),
                   cloexec := openTarget fs isBG c.cloexec.length (c.argv (i + 1)) :: c.cloexec }
      else if tok = "<" then
        if openSource fs isBG c.cloexec.length (c.argv (i + 1)) < 0 then .exited 1 "source dup2()"
        else redirectLoop fs isBG fuel (i + 1)
          { c with argv := c.argv.set 1 none,
                   stdin := some (openSource fs isBG c.cloexec.length (c.argv (i + 1))),
                   cloexec := openSource fs isBG c.cloexec.length (c.argv (i + 1)) :: c.cloexec }
      else
        redirectLoop fs isBG fuel (i + 1) c

/-- The routine `int RedirectIO(char **argv, int isBG)`, run in a child whose
standard descriptors are not yet redirected. -/
def RedirectIO (fs : FileSystem) (argv : Argv) (isBG : Int) (fuel : Nat) : Run Child :=
  redirectLoop fs isBG fuel 0 { argv := argv, stdin := none, stdout := none, cloexec := [] }

/-- Whether a token is one of the two redirection operators. -/
def isRedirect (tok : String) : Bool := tok = "<" || tok = ">"

/-- Modelled from the spec: the macro `WIFEXITED` of `<sys/wait.h>`, which is
not part of the repository: normal exit when the low 7 bits are 0. -/
def WIFEXITED (status : Int) : Bool := status % 128 = 0

/-- Modelled from the spec: the macro `WEXITSTATUS` of `<sys/wait.h>`: the exit
code is bits 8..15. -/
def WEXITSTATUS (status : Int) : Int := (status / 256) % 256

/-- Modelled from the spec: the macro `WIFSIGNALED` of `<sys/wait.h>`:
signalled when the low 7 bits are in 1..126. -/
def WIFSIGNALED (status : Int) : Bool := 1 ≤ status % 128 ∧ status % 128 ≤ 126

/-- Modelled from the spec: the macro `WTERMSIG` of `<sys/wait.h>`: the signal
is the low 7 bits. -/
def WTERMSIG (status : Int) : Int := status % 128

/-- The routine `void DisplayStatus(int status)`: what it prints. -/
def DisplayStatus (status : Int) : List String :=
  if WIFEXITED status then
    ["exit value " ++ toString (WEXITSTATUS status) ++ "\n"]
  else if WIFSIGNALED status then
    ["terminated by signal " ++ toString (WTERMSIG status) ++ "\n"]
  else
    []

/-! ## Process launcher -/

/-- The search `strstr(s, "$$")` on the text `s` that starts at offset `off` of
the line: the offset of the first `$$`, if any. -/
def strstrFrom : List Char → Nat → Option Nat
  | c1 :: c2 :: rest, off =>
    if c1 = '$' ∧ c2 = '$' then some off else strstrFrom (c2 :: rest) (off + 1)
  | _, _ => none

/-- The loop `while (ptr = strstr(ptr, "$$"))` of `ExpandPID`; `ptr` is kept as
an offset into `line`, and `buffer[BUFFER_SIZE]` holds at most 2047 characters
and the terminator. -/
def expandLoop (pid : List Char) : Nat → Nat → List Char → Run (List Char)
  | 0, _, _ => .stuck
  | fuel + 1, ptr, line =>
    match strstrFrom (line.drop ptr) ptr with
    | none => .done line
    | some q =>
      let buffer := line.take q ++ pid ++ line.drop (q + 2)
      if BUFFER_SIZE ≤ buffer.length then .fault "buffer[BUFFER_SIZE]"
      else expandLoop pid fuel q buffer

/-- The routine `char *ExpandPID(char *line)`; `pid` is what `getpid` returns. -/
def ExpandPID (pid : Nat) (line : List Char) (fuel : Nat) : Run (List Char) :=
  expandLoop (Nat.toDigits 10 pid) fuel 0 line

/-- The call `strtok(.., " ")` on the text not yet consumed: the next token and
the text after its delimiter, or none when only spaces are left. -/
def strtok (s : List Char) : Option (List Char × List Char) :=
  match s.dropWhile (fun ch => ch == ' ') with
  | [] => none
  | c :: cs =>
    some ((c :: cs).takeWhile (fun ch => ch != ' '),
          ((c :: cs).dropWhile (fun ch => ch != ' ')).drop 1)

/-- What `ParseInput` leaves: the argument array and the writes it made to it,
in program order. -/
structure Parsed where
  argv : Argv
  touched : List Access

/-- The loop `while(tok && index < MAX_NUMBER_ARG)` of `ParseInput`, followed by
`argv[index] = NULL` (`none`: out of fuel). -/
def parseLoop : Nat → Option (List Char × List Char) → Nat → Argv → List Access →
    Option Parsed
  | 0, _, _, _, _ => none
  | fuel + 1, tok, index, argv, log =>
    match tok with
    | some (t, rest) =>
      if index < MAX_NUMBER_ARG then
        parseLoop fuel (strtok rest) (index + 1) (argv.set index (some (String.mk t)))
          (log ++ [Access.write index])
      else
        some { argv := argv.set index none, touched := log ++ [Access.write index] }
    | none =>
      some { argv := argv.set index none, touched := log ++ [Access.write index] }

/-- The routine `char **ParseInput(char *line)`; `heap` is the content of the
block of `MAX_NUMBER_ARG` slots that `malloc` returns (indices `0..511`) and of
the memory after it. -/
def ParseInput (pid : Nat) (heap : Argv) (line : List Char) (fuel : Nat) : Run Parsed :=
  match ExpandPID pid line fuel with
  | .done line1 =>
    match parseLoop fuel (strtok line1) 0 heap [] with
    | none => .stuck
    | some r => .done r
  | .exited code diag => .exited code diag
  | .fault what => .fault what
  | .stuck => .stuck

/-- The text ` a a ... a` of `k` one-letter tokens, each after a space. -/
def spaced (k : Nat) : List Char := (List.replicate k [' ', 'a']).flatten

/-- The line `a a ... a` of 512 one-letter tokens: 1023 characters. -/
def line512 : List Char := 'a' :: spaced 511

theorem shiftLoop_spec (size : Nat) : ∀ (fuel j : Nat) (bg : PidMem) (log : List Access),
    j ≤ size → size - j < fuel →
    ∃ log', shiftLoop size fuel j bg log = some (shifted bg j size, log') ∧
      (∀ a, a ∈ log' → a ∈ log ∨ a.index ≤ size) ∧
      (∀ a, a ∈ log → a ∈ log') ∧
      (j < size → Access.read size ∈ log')
  | 0, _, _, _, _, h => by omega
  | fuel + 1, j, bg, log, hj, hf => by
    by_cases hlt : j < size
    · obtain ⟨log', h1, h2, h3, h4⟩ := shiftLoop_spec size fuel (j + 1)
        (bg.set j (bg (j + 1))) (log ++ [Access.read (j + 1), Access.write j]) hlt (by omega)
      refine ⟨log', ?_, ?_, ?_, ?_⟩
      · rw [shiftLoop, if_pos hlt, h1]
        congr 2
        funext k
        simp only [shifted, PidMem.set]
        by_cases hk1 : k = j
        · subst hk1
          simp [hlt]
        · by_cases hk2 : j + 1 ≤ k ∧ k < size
          · have : j ≤ k ∧ k < size := by omega
            have hne : k + 1 ≠ j := by omega
            simp [hk2, this, hne]
          · have : ¬ (j ≤ k ∧ k < size) := by omega
            simp [hk2, this, hk1]
      · intro a ha
        rcases h2 a ha with h | h
        · simp only [List.mem_append, List.mem_cons, List.mem_singleton, List.not_mem_nil,
            or_false] at h
          rcases h with h | h | h
          · exact Or.inl h
          · right; subst h; simp only [Access.index]; omega
          · right; subst h; simp only [Access.index]; omega
        · exact Or.inr h
      · intro a ha
        exact h3 a (List.mem_append_left _ ha)
      · intro _
        by_cases hlast : j + 1 < size
        · exact h4 hlast
        · have hEq : j + 1 = size := by omega
          exact h3 _ (by simp [hEq])
    · refine ⟨log, ?_, ?_, ?_, ?_⟩
      · rw [shiftLoop, if_neg hlt]
        congr 2
        funext k
        have : ¬ (j ≤ k ∧ k < size) := by omega
        simp [shifted, this]
      · intro a ha; exact Or.inl ha
      · intro a ha; exact ha
      · intro h; omega

/-- The identifier is found at slot `p`, its first occurrence at or after `i`. -/
theorem scanLoop_found (pid : Int) (size : Nat) :
    ∀ (fuel i : Nat) (bg : PidMem) (log : List Access) (p : Nat),
    i ≤ p → p < size → bg p = pid → (∀ k, i ≤ k → k < p → bg k ≠ pid) → p - i < fuel →
    ∃ log', scanLoop pid size fuel i bg log =
        some { ret := 0,
               bg_list := if p = MAX_CHILD_PROCESSES - 1 then bg.set p 0 else shifted bg p size,
               size := size - 1, touched := log', out := [] } ∧
      (∀ a, a ∈ log' → a ∈ log ∨ a.index ≤ size) ∧
      (p ≠ MAX_CHILD_PROCESSES - 1 → Access.read size ∈ log')
  | 0, _, _, _, _, _, _, _, _, h => by omega
  | fuel + 1, i, bg, log, p, hip, hp, hbg, hfirst, hf => by
    have hi : i < size := by omega
    by_cases hpid : bg i = pid
    · have hpi : p = i := by
        by_contra hne
        exact hfirst i (Nat.le_refl i) (by omega) hpid
      subst hpi
      by_cases h31 : p = MAX_CHILD_PROCESSES - 1
      · refine ⟨log ++ [Access.read p, Access.write p], ?_, ?_, ?_⟩
        · rw [scanLoop, if_pos hi, if_pos hpid, if_pos h31, if_pos h31]
        · intro a ha
          simp only [List.mem_append, List.mem_cons, List.mem_singleton, List.not_mem_nil,
            or_false] at ha
          rcases ha with h | h | h
          · exact Or.inl h
          · right; subst h; simp only [Access.index]; omega
          · right; subst h; simp only [Access.index]; omega
        · intro h; exact absurd h31 h
      · obtain ⟨log', h1, h2, h3, h4⟩ := shiftLoop_spec size (size + 1) p bg
          (log ++ [Access.read p]) (by omega) (by omega)
        refine ⟨log', ?_, ?_, ?_⟩
        · rw [scanLoop, if_pos hi, if_pos hpid, if_neg h31, if_neg h31, h1]
        · intro a ha
          rcases h2 a ha with h | h
          · simp only [List.mem_append, List.mem_singleton] at h
            rcases h with h | h
            · exact Or.inl h
            · right; subst h; simp only [Access.index]; omega
          · exact Or.inr h
        · intro _; exact h4 hp
    · obtain ⟨log', h1, h2, h3⟩ := scanLoop_found pid size fuel (i + 1) bg
        (log ++ [Access.read i]) p (by
          rcases Nat.lt_or_ge i p with h | h
          · exact h
          · have : p = i := by omega
            subst this
            exact absurd hbg hpid) hp hbg
        (fun k hk1 hk2 => hfirst k (by omega) hk2) (by
          have : i ≠ p := fun h => hpid (h ▸ hbg)
          omega)
      refine ⟨log', ?_, ?_, h3⟩
      · rw [scanLoop, if_pos hi, if_neg hpid, h1]
      · intro a ha
        rcases h2 a ha with h | h
        · simp only [List.mem_append, List.mem_singleton] at h
          rcases h with h | h
          · exact Or.inl h
          · right; subst h; simp only [Access.index]; omega
        · exact Or.inr h

/-- The identifier is in none of the slots `i .. size-1`. -/
theorem scanLoop_absent (pid : Int) (size : Nat) :
    ∀ (fuel i : Nat) (bg : PidMem) (log : List Access),
    i ≤ size → (∀ k, i ≤ k → k < size → bg k ≠ pid) → size - i < fuel →
    ∃ log', scanLoop pid size fuel i bg log =
        some { ret := -1, bg_list := bg, size := size, touched := log', out := [] } ∧
      (∀ a, a ∈ log' → a ∈ log ∨ a.index < size)
  | 0, _, _, _, _, _, h => by omega
  | fuel + 1, i, bg, log, hi, habs, hf => by
    by_cases hlt : i < size
    · have hpid : bg i ≠ pid := habs i (Nat.le_refl i) hlt
      obtain ⟨log', h1, h2⟩ := scanLoop_absent pid size fuel (i + 1) bg
        (log ++ [Access.read i]) hlt (fun k hk1 hk2 => habs k (by omega) hk2) (by omega)
      refine ⟨log', ?_, ?_⟩
      · rw [scanLoop, if_pos hlt, if_neg hpid, h1]
      · intro a ha
        rcases h2 a ha with h | h
        · simp only [List.mem_append, List.mem_singleton] at h
          rcases h with h | h
          · exact Or.inl h
          · right; subst h; simpa only [Access.index] using hlt
        · exact Or.inr h
    · refine ⟨log, ?_, fun a ha => Or.inl ha⟩
      rw [scanLoop, if_neg hlt]

/-- Among finitely many slots, a value that occurs has a first occurrence. -/
theorem first_slot (bg : PidMem) (pid : Int) (n : Nat) (h : ∃ k, k < n ∧ bg k = pid) :
    ∃ p, p < n ∧ bg p = pid ∧ ∀ k, k < p → bg k ≠ pid := by
  classical
  refine ⟨Nat.find h, (Nat.find_spec h).1, (Nat.find_spec h).2, ?_⟩
  intro k hk hbg
  exact Nat.find_min h hk ⟨by have := (Nat.find_spec h).1; omega, hbg⟩

/-- C2: with fewer than 32 tracked identifiers `PushPID` returns 0, the size
grows by one, slot `n` holds the identifier and every other slot is unchanged;
with 32 it returns -1 and neither the size nor any slot changes. -/
theorem PushPID_contract (pid : Int) (bg : PidMem) (n : Nat) :
    (n < MAX_CHILD_PROCESSES →
      (PushPID pid bg n).ret = 0 ∧ (PushPID pid bg n).size = n + 1 ∧
      (PushPID pid bg n).bg_list n = pid ∧
      (∀ k, k ≠ n → (PushPID pid bg n).bg_list k = bg k) ∧
      tracked (PushPID pid bg n).bg_list (n + 1) = tracked bg n ++ [pid]) ∧
    (n = MAX_CHILD_PROCESSES →
      (PushPID pid bg n).ret = -1 ∧ (PushPID pid bg n).size = n ∧
      (PushPID pid bg n).bg_list = bg ∧ (PushPID pid bg n).touched = []) := by
  constructor
  · intro hn
    have hge : ¬ n ≥ MAX_CHILD_PROCESSES := by omega
    have hset : ∀ k, k ≠ n → (bg.set n pid) k = bg k := by
      intro k hk
      simp [PidMem.set, hk]
    refine ⟨by simp [PushPID, hge], by simp [PushPID, hge], by simp [PushPID, hge, PidMem.set],
      by simpa [PushPID, hge] using hset, ?_⟩
    simp only [PushPID, hge, if_false]
    simp only [tracked, List.range_succ, List.map_append, List.map_cons, List.map_nil]
    congr 1
    · apply List.map_congr_left
      intro k hk
      exact hset k (by have := List.mem_range.1 hk; omega)
    · simp [PidMem.set]
  · intro hn
    have hge : n ≥ MAX_CHILD_PROCESSES := by omega
    simp [PushPID, hge]

/-- Witness of C2: a push into a table of two, and a push into a full table. -/
theorem PushPID_contract_witness :
    ((PushPID 7 fullTable 2).ret = 0 ∧ (PushPID 7 fullTable 2).size = 3 ∧
      tracked (PushPID 7 fullTable 2).bg_list 3 = [100, 101, 7]) ∧
    ((PushPID 7 fullTable 32).ret = -1 ∧ (PushPID 7 fullTable 32).size = 32 ∧
      (PushPID 7 fullTable 32).bg_list = fullTable) := by
  have h2 := (PushPID_contract 7 fullTable 2).1 (by decide)
  have h32 := (PushPID_contract 7 fullTable 32).2 rfl
  exact ⟨⟨h2.1, h2.2.1, by rw [h2.2.2.2.2]; decide⟩, h32.1, h32.2.1, h32.2.2.1⟩

/-- C9, the code at a full table: removing the identifier of slot 0 from a table
of 32 returns 0 and, while shifting, reads `bg_list[32]`, one slot past the
32-slot array. -/
theorem RemovePID_full_table_reads_slot_32 :
    ∃ r, RemovePID 100 fullTable 32 = some r ∧ r.ret = 0 ∧
      Access.read MAX_CHILD_PROCESSES ∈ r.touched := by
  obtain ⟨log', h1, -, h3⟩ := scanLoop_found 100 32 (32 + 1) 0 fullTable [] 0 (Nat.le_refl 0)
    (by decide) (by decide) (fun k h1 h2 => by omega) (by omega)
  exact ⟨_, h1, rfl, h3 (by decide)⟩

/-- Every access of `RemovePID` is inside the array when fewer than 32
identifiers are tracked. -/
theorem RemovePID_in_bounds_below_capacity (pid : Int) (bg : PidMem) (n : Nat)
    (hn : n < MAX_CHILD_PROCESSES) :
    ∃ r, RemovePID pid bg n = some r ∧ ∀ a, a ∈ r.touched → a.index < MAX_CHILD_PROCESSES := by
  by_cases hmem : ∃ k, k < n ∧ bg k = pid
  · obtain ⟨p, hp, hbg, hfirst⟩ := first_slot bg pid n hmem
    obtain ⟨log', h1, h2, -⟩ := scanLoop_found pid n (n + 1) 0 bg [] p (Nat.zero_le p) hp hbg
      (fun k _ hk => hfirst k hk) (by omega)
    refine ⟨_, h1, ?_⟩
    intro a ha
    rcases h2 a ha with h | h
    · simp at h
    · omega
  · have habs : ∀ k, 0 ≤ k → k < n → bg k ≠ pid := fun k _ hk hbg => hmem ⟨k, hk, hbg⟩
    obtain ⟨log', h1, h2⟩ := scanLoop_absent pid n (n + 1) 0 bg [] (Nat.zero_le n) habs (by omega)
    refine ⟨_, h1, ?_⟩
    intro a ha
    rcases h2 a ha with h | h
    · simp at h
    · omega

/-- Removing from a full table any identifier whose first slot is not the last
one reads `bg_list[32]`. -/
theorem RemovePID_out_of_bounds_at_capacity (pid : Int) (bg : PidMem) (p : Nat)
    (hp : p < MAX_CHILD_PROCESSES - 1) (hbg : bg p = pid) (hfirst : ∀ k, k < p → bg k ≠ pid) :
    ∃ r, RemovePID pid bg MAX_CHILD_PROCESSES = some r ∧
      Access.read MAX_CHILD_PROCESSES ∈ r.touched := by
  obtain ⟨log', h1, -, h3⟩ := scanLoop_found pid MAX_CHILD_PROCESSES (MAX_CHILD_PROCESSES + 1)
    0 bg [] p (Nat.zero_le p) (by omega) hbg (fun k _ hk => hfirst k hk) (by omega)
  exact ⟨_, h1, h3 (by omega)⟩

/-! ## Command vector: lemmas -/

theorem slots_length (argv : Argv) (n : Nat) : (slots argv n).length = n := by
  simp [slots]

theorem holds_slot {argv : Argv} {toks : List String} (hv : Holds argv toks) (k : Nat)
    (hk : k < toks.length) : argv k = some toks[k] := by
  have h1 : (slots argv (toks.length + 1))[k]? = (toks.map some ++ [none])[k]? := by
    rw [hv]
  simp only [slots] at h1
  rw [List.getElem?_map, List.getElem?_range (by omega),
    List.getElem?_append_left (by simpa using hk)] at h1
  simpa [List.getElem?_eq_getElem hk] using h1

theorem holds_end {argv : Argv} {toks : List String} (hv : Holds argv toks) :
    argv toks.length = none := by
  have h1 : (slots argv (toks.length + 1))[toks.length]? =
      (toks.map some ++ [none])[toks.length]? := by
    rw [hv]
  simp only [slots] at h1
  rw [List.getElem?_map, List.getElem?_range (by omega),
    List.getElem?_append_right (by simp)] at h1
  simpa using h1

theorem holds_intro (argv : Argv) (toks : List String)
    (h1 : ∀ k (hk : k < toks.length), argv k = some toks[k]) (h2 : argv toks.length = none) :
    Holds argv toks := by
  unfold Holds
  apply List.ext_getElem
  · simp [slots_length]
  · intro k hk1 hk2
    have hk : k < toks.length + 1 := by simpa [slots_length] using hk1
    simp only [slots, List.getElem_map, List.getElem_range]
    rcases Nat.lt_or_ge k toks.length with hlt | hge
    · rw [List.getElem_append_left (by simpa using hlt)]
      simpa using h1 k hlt
    · have : k = toks.length := by omega
      subst this
      rw [List.getElem_append_right (by simp)]
      simpa using h2

theorem holds_layout (toks : List String) : Holds (layout toks) toks := by
  apply holds_intro
  · intro k hk
    simp [layout, List.getElem?_eq_getElem hk]
  · simp [layout]

theorem argvEnd_spec (argv : Argv) (n : Nat) (hend : argv n = none) :
    ∀ (fuel i : Nat), i ≤ n → (∀ k, i ≤ k → k < n → argv k ≠ none) → n - i < fuel →
      argvEnd argv fuel i = some n
  | 0, _, _, _, h => by omega
  | fuel + 1, i, hi, hfull, hf => by
    rcases Nat.lt_or_ge i n with hlt | hge
    · rw [argvEnd, if_pos (hfull i (Nat.le_refl i) hlt)]
      exact argvEnd_spec argv n hend fuel (i + 1) hlt
        (fun k hk1 hk2 => hfull k (by omega) hk2) (by omega)
    · have : i = n := by omega
      subst this
      rw [argvEnd, if_neg (by simp [hend])]

theorem argvEnd_holds {argv : Argv} {toks : List String} (hv : Holds argv toks) (fuel : Nat)
    (hf : toks.length < fuel) : argvEnd argv fuel 0 = some toks.length := by
  apply argvEnd_spec argv toks.length (holds_end hv) fuel 0 (Nat.zero_le _) _ (by omega)
  intro k _ hk
  rw [holds_slot hv k hk]
  simp

/-- What `IsBGProcess` does on a vector `front ++ [last]`. -/
theorem IsBGProcess_concat (flag : Int) (argv : Argv) (front : List String) (last : String)
    (fuel : Nat) (hv : Holds argv (front ++ [last])) (hf : (front ++ [last]).length < fuel) :
    IsBGProcess flag argv fuel =
      if last = "&" then
        (if flag ≠ 0 then .done (0, argv.set front.length none)
         else .done (1, argv.set front.length none))
      else .done (0, argv) := by
  have hend := argvEnd_holds hv fuel hf
  have hlen : (front ++ [last]).length = front.length + 1 := by simp
  have hlast : argv front.length = some last := by
    rw [holds_slot hv front.length (by omega)]
    simp
  rw [hlen] at hend
  simp only [IsBGProcess, hend, hlast, Option.some.injEq]

theorem holds_strip_last (argv : Argv) (front : List String) (last : String)
    (hv : Holds argv (front ++ [last])) : Holds (argv.set front.length none) front := by
  apply holds_intro
  · intro k hk
    have hne : k ≠ front.length := by omega
    simp only [Argv.set, hne, if_false]
    rw [holds_slot hv k (by simp; omega)]
    simp [List.getElem_append_left hk]
  · simp [Argv.set]

/-! ## Classification: contracts -/

/-- C3: on a non-empty command vector `IsBGProcess` returns 1 exactly when the
last token is `&` and the foreground-only flag is off; whenever the last token
is `&` its slot is set to `NULL`, so the vector loses that token and keeps the
earlier ones, and no other slot changes; when the last token is not `&` the
result is 0 and the array is unchanged. -/
theorem IsBGProcess_contract (flag : Int) (argv : Argv) (toks : List String) (fuel : Nat)
    (hv : Holds argv toks) (hne : toks ≠ []) (hf : toks.length < fuel) :
    ∃ r argv', IsBGProcess flag argv fuel = .done (r, argv') ∧
      (r = 1 ↔ toks.getLast? = some "&" ∧ flag = 0) ∧
      (toks.getLast? = some "&" →
        (r = 0 ∨ r = 1) ∧ Holds argv' toks.dropLast ∧
        ∀ k, k ≠ toks.length - 1 → argv' k = argv k) ∧
      (toks.getLast? ≠ some "&" → r = 0 ∧ argv' = argv) := by
  obtain ⟨front, last, rfl⟩ : ∃ front last, toks = front ++ [last] :=
    ⟨toks.dropLast, toks.getLast hne, (List.dropLast_append_getLast hne).symm⟩
  have hrun := IsBGProcess_concat flag argv front last fuel hv hf
  have hstrip := holds_strip_last argv front last hv
  have hset : ∀ k, k ≠ (front ++ [last]).length - 1 → (argv.set front.length none) k = argv k := by
    intro k hk
    have : k ≠ front.length := by simpa using hk
    simp [Argv.set, this]
  by_cases hamp : last = "&"
  · by_cases hflag : flag = 0
    · refine ⟨1, argv.set front.length none, ?_, ?_, ?_, ?_⟩
      · rw [hrun]; simp [hamp, hflag]
      · simp [hamp, hflag]
      · intro _
        exact ⟨Or.inr rfl, by simpa using hstrip, hset⟩
      · intro h; simp [hamp] at h
    · refine ⟨0, argv.set front.length none, ?_, ?_, ?_, ?_⟩
      · rw [hrun]; simp [hamp, hflag]
      · simp [hflag]
      · intro _
        exact ⟨Or.inl rfl, by simpa using hstrip, hset⟩
      · intro h; simp [hamp] at h
  · refine ⟨0, argv, ?_, ?_, ?_, ?_⟩
    · rw [hrun]; simp [hamp]
    · simp [hamp]
    · intro h
      simp at h
      exact absurd h hamp
    · intro _; exact ⟨rfl, rfl⟩

/-- Witness of C3: the vector `sleep 5 &` with the flag off. -/
theorem IsBGProcess_contract_witness :
    ∃ r argv', IsBGProcess 0 (layout ["sleep", "5", "&"]) 4 = .done (r, argv') ∧
      (r = 1 ↔ ["sleep", "5", "&"].getLast? = some "&" ∧ (0 : Int) = 0) ∧
      (["sleep", "5", "&"].getLast? = some "&" →
        (r = 0 ∨ r = 1) ∧ Holds argv' ["sleep", "5", "&"].dropLast ∧
        ∀ k, k ≠ ["sleep", "5", "&"].length - 1 → argv' k = layout ["sleep", "5", "&"] k) ∧
      (["sleep", "5", "&"].getLast? ≠ some "&" → r = 0 ∧ argv' = layout ["sleep", "5", "&"]) :=
  IsBGProcess_contract 0 (layout ["sleep", "5", "&"]) ["sleep", "5", "&"] 4
    (holds_layout _) (by decide) (by decide)

/-- C6: two deliveries of the mode-toggle signal leave `IsBGProcess` with the
same result on every argument array, whatever the flag was; from the initial
flag 0, a non-empty vector that ends in `&` is classified foreground (0) after
one delivery and background (1) again after two. -/
theorem toggle_twice_restores_classification (flag : Int) (argv : Argv) (toks : List String)
    (fuel : Nat) (hv : Holds argv toks) (hne : toks ≠ []) (hf : toks.length < fuel) :
    IsBGProcess (catchSIGTSTP (catchSIGTSTP flag).1).1 argv fuel = IsBGProcess flag argv fuel ∧
    (∃ r argv', IsBGProcess flag argv fuel = .done (r, argv')) ∧
    (toks.getLast? = some "&" →
      (∃ argv', IsBGProcess 0 argv fuel = .done (1, argv')) ∧
      (∃ argv', IsBGProcess (catchSIGTSTP 0).1 argv fuel = .done (0, argv')) ∧
      (∃ argv', IsBGProcess (catchSIGTSTP (catchSIGTSTP 0).1).1 argv fuel = .done (1, argv'))) := by
  obtain ⟨front, last, rfl⟩ : ∃ front last, toks = front ++ [last] :=
    ⟨toks.dropLast, toks.getLast hne, (List.dropLast_append_getLast hne).symm⟩
  have hrun := fun f => IsBGProcess_concat f argv front last fuel hv hf
  refine ⟨?_, ?_, ?_⟩
  · rw [hrun, hrun]
    by_cases hflag : flag = 0
    · simp [catchSIGTSTP, hflag]
    · simp [catchSIGTSTP, hflag]
  · rw [hrun]
    by_cases hamp : last = "&"
    · by_cases hflag : flag = 0
      · exact ⟨1, argv.set front.length none, by simp [hamp, hflag]⟩
      · exact ⟨0, argv.set front.length none, by simp [hamp, hflag]⟩
    · exact ⟨0, argv, by simp [hamp]⟩
  · intro hlast
    have hamp : last = "&" := by simpa using hlast
    refine ⟨⟨argv.set front.length none, ?_⟩, ⟨argv.set front.length none, ?_⟩,
      ⟨argv.set front.length none, ?_⟩⟩
    · rw [hrun]; simp [hamp]
    · rw [hrun]; simp [hamp, catchSIGTSTP]
    · rw [hrun]; simp [hamp, catchSIGTSTP]

/-- Witness of C6: the vector `sleep 5 &` starting in foreground-only mode. -/
theorem toggle_twice_restores_classification_witness :
    IsBGProcess (catchSIGTSTP (catchSIGTSTP 1).1).1 (layout ["sleep", "5", "&"]) 4 =
      IsBGProcess 1 (layout ["sleep", "5", "&"]) 4 ∧
    (∃ r argv', IsBGProcess 1 (layout ["sleep", "5", "&"]) 4 = .done (r, argv')) ∧
    (["sleep", "5", "&"].getLast? = some "&" →
      (∃ argv', IsBGProcess 0 (layout ["sleep", "5", "&"]) 4 = .done (1, argv')) ∧
      (∃ argv', IsBGProcess (catchSIGTSTP 0).1 (layout ["sleep", "5", "&"]) 4 = .done (0, argv')) ∧
      (∃ argv', IsBGProcess (catchSIGTSTP (catchSIGTSTP 0).1).1 (layout ["sleep", "5", "&"]) 4 =
        .done (1, argv'))) :=
  toggle_twice_restores_classification 1 (layout ["sleep", "5", "&"]) ["sleep", "5", "&"] 4
    (holds_layout _) (by decide) (by decide)

/-! ## Redirector: lemmas -/

/-- With no operator in slots `i ..` up to the sentinel, the loop returns the
state it was given. -/
theorem redirectLoop_no_operator (fs : FileSystem) (isBG : Int) (n : Nat) :
    ∀ (fuel i : Nat) (c : Child), i ≤ n → c.argv n = none →
      (∀ k, i ≤ k → k < n → ∃ t, c.argv k = some t ∧ isRedirect t = false) → n - i < fuel →
      redirectLoop fs isBG fuel i c = .done c
  | 0, _, _, _, _, _, h => by omega
  | fuel + 1, i, c, hi, hend, hplain, hf => by
    rw [redirectLoop]
    rcases Nat.lt_or_ge i n with hlt | hge
    · obtain ⟨t, ht, hnr⟩ := hplain i (Nat.le_refl i) hlt
      have h1 : t ≠ ">" := by intro h; subst h; simp [isRedirect] at hnr
      have h2 : t ≠ "<" := by intro h; subst h; simp [isRedirect] at hnr
      simp only [ht, h1, h2, if_false]
      exact redirectLoop_no_operator fs isBG n fuel (i + 1) c hlt hend
        (fun k hk1 hk2 => hplain k (by omega) hk2) (by omega)
    · have : i = n := by omega
      subst this
      simp only [hend]

/-- With a `NULL` at or after slot `i` and fuel for the slots up to it, the loop
ends: it returns or calls `exit(1)`. -/
theorem redirectLoop_terminates (fs : FileSystem) (isBG : Int) (n : Nat) :
    ∀ (fuel i : Nat) (c : Child), i ≤ n → c.argv n = none → n - i < fuel →
      (∃ c', redirectLoop fs isBG fuel i c = .done c') ∨
      (∃ diag, redirectLoop fs isBG fuel i c = .exited 1 diag)
  | 0, _, _, _, _, h => by omega
  | fuel + 1, i, c, hi, hend, hf => by
    rw [redirectLoop]
    cases hci : c.argv i with
    | none => exact Or.inl ⟨c, rfl⟩
    | some tok =>
      have hlt : i < n := by
        rcases Nat.lt_or_ge i n with h | h
        · exact h
        · have : i = n := by omega
          subst this
          rw [hend] at hci
          cases hci
      have hend' : (c.argv.set 1 none) n = none := by
        by_cases h1 : n = 1
        · simp [Argv.set, h1]
        · simp [Argv.set, h1, hend]
      simp only
      by_cases hgt : tok = ">"
      · rw [if_pos hgt]
        by_cases hfd : openTarget fs isBG c.cloexec.length (c.argv (i + 1)) < 0
        · rw [if_pos hfd]
          exact Or.inr ⟨_, rfl⟩
        · rw [if_neg hfd]
          exact redirectLoop_terminates fs isBG n fuel (i + 1) _ hlt hend' (by omega)
      · rw [if_neg hgt]
        by_cases hltk : tok = "<"
        · rw [if_pos hltk]
          by_cases hfd : openSource fs isBG c.cloexec.length (c.argv (i + 1)) < 0
          · rw [if_pos hfd]
            exact Or.inr ⟨_, rfl⟩
          · rw [if_neg hfd]
            exact redirectLoop_terminates fs isBG n fuel (i + 1) _ hlt hend' (by omega)
        · rw [if_neg hltk]
          exact redirectLoop_terminates fs isBG n fuel (i + 1) c hlt hend (by omega)

/-- On an array that holds a command vector, with fuel for its length,
`RedirectIO` returns or calls `exit(1)`. -/
theorem RedirectIO_terminates (fs : FileSystem) (isBG : Int) (argv : Argv) (toks : List String)
    (fuel : Nat) (hv : Holds argv toks) (hf : toks.length < fuel) :
    (∃ c', RedirectIO fs argv isBG fuel = .done c') ∨
    (∃ diag, RedirectIO fs argv isBG fuel = .exited 1 diag) :=
  redirectLoop_terminates fs isBG toks.length fuel 0 _ (Nat.zero_le _) (holds_end hv) (by omega)

theorem emod_128_cases (status : Int) :
    status % 128 = 0 ∨ (1 ≤ status % 128 ∧ status % 128 ≤ 126) ∨ status % 128 = 127 := by
  have h1 : 0 ≤ status % 128 := Int.emod_nonneg status (by decide)
  have h2 : status % 128 < 128 := Int.emod_lt_of_pos status (by decide)
  omega

/-- C5, as stated, fails: for the status 127 (low 7 bits all set, neither an
exit nor a signal) `DisplayStatus` prints nothing. -/
theorem DisplayStatus_prints_nothing_for_127 :
    WIFEXITED 127 = false ∧ WIFSIGNALED 127 = false ∧ DisplayStatus 127 = [] := by
  decide

/-- C5, amended: for every status whose low 7 bits are not 127 `DisplayStatus`
prints exactly one line: `exit value N` with the exit code (bits 8..15) when
the low 7 bits are 0, `terminated by signal N` with the low 7 bits when they
are in 1..126; when the low 7 bits are 127 it prints nothing. -/
theorem DisplayStatus_forms (status : Int) :
    (status % 128 = 0 →
      DisplayStatus status = ["exit value " ++ toString ((status / 256) % 256) ++ "\n"]) ∧
    (1 ≤ status % 128 ∧ status % 128 ≤ 126 →
      DisplayStatus status = ["terminated by signal " ++ toString (status % 128) ++ "\n"]) ∧
    (status % 128 = 127 → DisplayStatus status = []) ∧
    ((DisplayStatus status).length = 1 ↔ status % 128 ≠ 127) := by
  have hforms : (status % 128 = 0 →
      DisplayStatus status = ["exit value " ++ toString ((status / 256) % 256) ++ "\n"]) ∧
    (1 ≤ status % 128 ∧ status % 128 ≤ 126 →
      DisplayStatus status = ["terminated by signal " ++ toString (status % 128) ++ "\n"]) ∧
    (status % 128 = 127 → DisplayStatus status = []) := by
    refine ⟨?_, ?_, ?_⟩
    · intro h
      simp [DisplayStatus, WIFEXITED, WEXITSTATUS, h]
    · intro h
      have h0 : status % 128 ≠ 0 := by omega
      simp [DisplayStatus, WIFEXITED, WIFSIGNALED, WTERMSIG, h0, h.1, h.2]
    · intro h
      simp [DisplayStatus, WIFEXITED, WIFSIGNALED, h]
  refine ⟨hforms.1, hforms.2.1, hforms.2.2, ?_⟩
  rcases emod_128_cases status with h | h | h
  · rw [hforms.1 h]
    simp [h]
  · rw [hforms.2.1 h]
    have : status % 128 ≠ 127 := by omega
    simp [this]
  · rw [hforms.2.2 h]
    simp [h]

/-- Witness of C5 amended: the status 256 of `exit(1)`. -/
theorem DisplayStatus_forms_witness :
    DisplayStatus 256 = ["exit value " ++ toString (((256 : Int) / 256) % 256) ++ "\n"] ∧
    DisplayStatus 256 = ["exit value 1\n"] :=
  ⟨(DisplayStatus_forms 256).1 (by decide), by decide⟩

/-! ## Parser -/

theorem spaced_succ (k : Nat) : spaced (k + 1) = ' ' :: 'a' :: spaced k := by
  simp [spaced, List.replicate_succ]

theorem spaced_length (k : Nat) : (spaced k).length = 2 * k := by
  induction k with
  | zero => rfl
  | succ k ih => rw [spaced_succ]; simp [ih]; omega

theorem strtok_letter (rest : List Char) (k : Nat) (h : rest = [] ∨ rest = spaced (k + 1)) :
    strtok ('a' :: rest) = some (['a'], rest.drop 1) := by
  rcases h with h | h
  · subst h
    decide
  · subst h
    rw [spaced_succ]
    simp [strtok, List.dropWhile, List.takeWhile]

theorem strstrFrom_none : ∀ (l : List Char) (off : Nat), '$' ∉ l → strstrFrom l off = none
  | [], _, _ => rfl
  | [_], _, _ => rfl
  | c1 :: c2 :: rest, off, h => by
    have h1 : c1 ≠ '$' := fun e => h (by simp [e])
    have ih := strstrFrom_none (c2 :: rest) (off + 1) (fun hm => h (List.mem_cons_of_mem _ hm))
    simp [strstrFrom, h1, ih]

theorem dollar_not_mem_spaced (k : Nat) : '$' ∉ spaced k := by
  induction k with
  | zero => simp [spaced]
  | succ k ih =>
    rw [spaced_succ]
    intro h
    simp only [List.mem_cons] at h
    rcases h with h | h | h
    · exact absurd h (by decide)
    · exact absurd h (by decide)
    · exact ih h

/-- The loop of `ParseInput` on `k + 1` remaining one-letter tokens, starting at
slot `index`: when the tokens reach slot 511, slot 512 is written. -/
theorem parseLoop_writes_512 : ∀ (fuel k index : Nat) (argv : Argv) (log : List Access),
    index ≤ MAX_NUMBER_ARG → MAX_NUMBER_ARG ≤ index + k + 1 → MAX_NUMBER_ARG - index + 1 < fuel →
    ∃ r, parseLoop fuel (strtok ('a' :: spaced k)) index argv log = some r ∧
      Access.write MAX_NUMBER_ARG ∈ r.touched
  | 0, _, _, _, _, _, _, h => by omega
  | fuel + 1, k, index, argv, log, hi, hk, hf => by
    have htok : strtok ('a' :: spaced k) = some (['a'], (spaced k).drop 1) := by
      cases k with
      | zero => exact strtok_letter _ 0 (Or.inl rfl)
      | succ k => exact strtok_letter _ k (Or.inr rfl)
    rw [htok, parseLoop]
    rcases Nat.lt_or_ge index MAX_NUMBER_ARG with hlt | hge
    · simp only [hlt, if_true]
      cases k with
      | zero =>
        have h511 : index + 1 = MAX_NUMBER_ARG := by omega
        have hnone : strtok ((spaced 0).drop 1) = none := by decide
        rw [hnone]
        cases fuel with
        | zero => omega
        | succ fuel =>
          refine ⟨_, rfl, ?_⟩
          simp [h511]
      | succ k =>
        have hrest : (spaced (k + 1)).drop 1 = 'a' :: spaced k := by
          rw [spaced_succ]; rfl
        rw [hrest]
        exact parseLoop_writes_512 fuel k (index + 1) _ _ hlt (by omega) (by omega)
    · have h512 : index = MAX_NUMBER_ARG := by omega
      have hnlt : ¬ index < MAX_NUMBER_ARG := by omega
      simp only [hnlt, if_false]
      refine ⟨_, rfl, ?_⟩
      simp [h512]

/-- C10, the code at a line of 512 tokens: `ParseInput` returns, and the write of
the `NULL` sentinel goes to `argv[512]`, one slot past the 512 slots allocated. -/
theorem ParseInput_512_tokens_writes_slot_512 (pid : Nat) (heap : Argv) :
    line512.length = 1023 ∧
    ∃ r, ParseInput pid heap line512 1024 = .done r ∧
      Access.write MAX_NUMBER_ARG ∈ r.touched := by
  constructor
  · simp [line512, spaced_length]
  · have hexp : ExpandPID pid line512 1024 = .done line512 := by
      have hnone : strstrFrom (line512.drop 0) 0 = none := by
        apply strstrFrom_none
        intro h
        simp only [line512, List.drop_zero, List.mem_cons] at h
        rcases h with h | h
        · exact absurd h (by decide)
        · exact dollar_not_mem_spaced 511 h
      simp only [ExpandPID, expandLoop, hnone]
    obtain ⟨r, hr, hw⟩ := parseLoop_writes_512 1024 511 0 heap [] (by decide) (by decide)
      (by decide)
    refine ⟨r, ?_, hw⟩
    simp only [ParseInput, hexp]
    have hr' : parseLoop 1024 (strtok line512) 0 heap [] = some r := hr
    rw [hr']

end Smallsh
